import Mathlib

/-!
Verification of the github_scraper repository's specification against a
shallow Lean embedding of its code.

Source of truth: `src/github_pulse_scraper.py` and `src/utils.py`.
Python values are embedded as follows: machine-independent Python ints
become `Nat`/`Int`; parsed ISO-8601 timestamps become `Int` (only their
ordering matters to the code under study); `None`-able fields become
`Option`; Python dicts whose concrete key sets the code relies on become
structures; network responses become explicit page lists; raised
exceptions become explicit outcome values that the embedded control flow
matches on, mirroring the `try/except` structure of the source.
-/

namespace GithubScraper

/-!
## Commits and contributor analysis

`GitHubPulseScraper.analyze_contributors` (src/github_pulse_scraper.py,
lines 172-179) reads, for each commit dict, the field `commit["author"]`.
The GitHub API sets that field either to `null` or to a user object; the
code guards with the truthiness test `if commit.get("author")` and then
reads `commit["author"].get("login", "Unknown")`.  A commit is therefore
embedded by the one field the function consumes:

  * `author = none`             — the JSON field is `null` or absent
                                  (falsy, skipped by the guard);
  * `author = some none`        — a (non-empty, hence truthy) author
                                  object that carries no `login` key, so
                                  the `.get` default "Unknown" fires;
  * `author = some (some l)`    — an author object with login `l`.
-/

structure Commit where
  author : Option (Option String)
  deriving Repr, DecidableEq

/-- The login `analyze_contributors` tallies a commit under: `none` when
the commit is skipped by the `if commit.get("author")` guard, otherwise
`commit["author"].get("login", "Unknown")`. -/
def commitLogin (c : Commit) : Option String :=
  match c.author with
  | none => none
  | some lg => some (lg.getD "Unknown")

/-- `contributors[author] += 1` on a `defaultdict(int)`: Python dicts
preserve insertion order, so the tally is an association list in which a
new login is appended at the end and an existing login's count is bumped
in place.  Keys stay distinct. -/
def bump (t : List (String × Nat)) (a : String) : List (String × Nat) :=
  match t with
  | [] => [(a, 1)]
  | (k, v) :: rest => if k = a then (k, v + 1) :: rest else (k, v) :: bump rest a

/-- One iteration of the `for commit in commits` loop of
`analyze_contributors`. -/
def tallyStep (t : List (String × Nat)) (c : Commit) : List (String × Nat) :=
  match commitLogin c with
  | none => t
  | some a => bump t a

/-- The `contributors` defaultdict after the loop of
`analyze_contributors`: logins in first-encounter order, with counts. -/
def rawTally (commits : List Commit) : List (String × Nat) :=
  commits.foldl tallyStep []

/-- Insert one entry into a list that is kept in non-increasing count
order, after every entry with a strictly larger count and before the
first entry whose count is less than or equal.  Folding this over a list
front-to-back is a stable sort by count descending, which is exactly what
`sorted(contributors.items(), key=lambda x: x[1], reverse=True)` computes
(Python's `sorted` is stable, and `reverse=True` keeps the original order
of entries that compare equal). -/
def insertByCountDesc (x : String × Nat) : List (String × Nat) → List (String × Nat)
  | [] => [x]
  | y :: ys => if y.2 ≤ x.2 then x :: y :: ys else y :: insertByCountDesc x ys

/-- Stable sort by count descending; extensionally equal to Python's
`sorted(..., key=lambda x: x[1], reverse=True)`. -/
def sortByCountDesc : List (String × Nat) → List (String × Nat)
  | [] => []
  | x :: xs => insertByCountDesc x (sortByCountDesc xs)

/-- `GitHubPulseScraper.analyze_contributors` (lines 172-179): tally the
commits per author login, then
`dict(sorted(contributors.items(), key=lambda x: x[1], reverse=True))`.
The resulting `dict` preserves the sorted order, so it is embedded as the
sorted association list itself. -/
def analyze_contributors (commits : List Commit) : List (String × Nat) :=
  sortByCountDesc (rawTally commits)

/-- The members of a list in first-encounter order, given an initial set
of already-seen keys; `firstOccurrences` below instantiates `seen := []`.
Used only to state in which order `rawTally` lists its keys. -/
def firstOccurrencesAux (seen : List String) : List String → List String
  | [] => []
  | a :: rest =>
    if seen.contains a then firstOccurrencesAux seen rest
    else a :: firstOccurrencesAux (seen ++ [a]) rest

/-- Each distinct member of a list, once, in the order of first
occurrence. -/
def firstOccurrences (l : List String) : List String :=
  firstOccurrencesAux [] l

/-! ### Lemmas about the tally -/

/-- Bumping a login adds one to the total count. -/
theorem sum_bump (t : List (String × Nat)) (a : String) :
    ((bump t a).map Prod.snd).sum = (t.map Prod.snd).sum + 1 := by
  induction t with
  | nil => simp [bump]
  | cons p rest ih =>
    obtain ⟨k, v⟩ := p
    by_cases h : k = a <;> simp [bump, h, ih] <;> omega

/-- Folding the tally step adds one per commit whose author field is
truthy. -/
theorem sum_foldl_tallyStep (commits : List Commit) (t : List (String × Nat)) :
    (((commits.foldl tallyStep t).map Prod.snd).sum)
      = (t.map Prod.snd).sum + commits.countP (fun c => c.author.isSome) := by
  induction commits generalizing t with
  | nil => simp
  | cons c rest ih =>
    rcases hc : c.author with _ | lg <;>
      simp [List.foldl_cons, tallyStep, commitLogin, hc, ih, List.countP_cons, sum_bump] <;>
      omega

/-- Insertion preserves the total count. -/
theorem sum_insertByCountDesc (x : String × Nat) (l : List (String × Nat)) :
    ((insertByCountDesc x l).map Prod.snd).sum = x.2 + (l.map Prod.snd).sum := by
  induction l with
  | nil => simp [insertByCountDesc]
  | cons y ys ih =>
    by_cases h : y.2 ≤ x.2 <;> simp [insertByCountDesc, h, ih] <;> omega

/-- Sorting preserves the total count. -/
theorem sum_sortByCountDesc (l : List (String × Nat)) :
    ((sortByCountDesc l).map Prod.snd).sum = (l.map Prod.snd).sum := by
  induction l with
  | nil => rfl
  | cons x xs ih => simp [sortByCountDesc, sum_insertByCountDesc, ih]

/-- The head of an insertion is either the inserted entry or the head of
the original list. -/
theorem head?_insertByCountDesc (x : String × Nat) (l : List (String × Nat)) :
    (insertByCountDesc x l).head? = some x ∨ (insertByCountDesc x l).head? = l.head? := by
  cases l with
  | nil => left; rfl
  | cons y ys =>
    by_cases h : y.2 ≤ x.2
    · left; simp [insertByCountDesc, h]
    · right; simp [insertByCountDesc, h]

/-- Inserting into a non-increasing list keeps it non-increasing. -/
theorem chain'_insertByCountDesc (x : String × Nat) (l : List (String × Nat))
    (h : l.Chain' (fun p q => q.2 ≤ p.2)) :
    (insertByCountDesc x l).Chain' (fun p q => q.2 ≤ p.2) := by
  induction l with
  | nil => simp [insertByCountDesc]
  | cons y ys ih =>
    rw [List.chain'_cons'] at h
    by_cases hyx : y.2 ≤ x.2
    · rw [insertByCountDesc]
      simp only [hyx, if_true]
      rw [List.chain'_cons]
      exact ⟨hyx, List.chain'_cons'.mpr h⟩
    · rw [insertByCountDesc]
      simp only [hyx, if_false]
      rw [List.chain'_cons']
      refine ⟨?_, ih h.2⟩
      intro z hz
      rcases head?_insertByCountDesc x ys with hh | hh
      · rw [hh] at hz
        simp only [Option.mem_def, Option.some.injEq] at hz
        subst hz
        omega
      · rw [hh] at hz
        exact h.1 z hz

/-- The sorted tally is in non-increasing count order. -/
theorem chain'_sortByCountDesc (l : List (String × Nat)) :
    (sortByCountDesc l).Chain' (fun p q => q.2 ≤ p.2) := by
  induction l with
  | nil => simp [sortByCountDesc]
  | cons x xs ih => exact chain'_insertByCountDesc x _ ih

/-- Entries that share one count keep their relative order under
insertion: the entries an insertion walks past all have strictly larger
counts. -/
theorem filter_insertByCountDesc (x : String × Nat) (l : List (String × Nat)) (n : Nat) :
    (insertByCountDesc x l).filter (fun p => p.2 = n)
      = if x.2 = n then x :: l.filter (fun p => p.2 = n)
        else l.filter (fun p => p.2 = n) := by
  induction l with
  | nil => by_cases h : x.2 = n <;> simp [insertByCountDesc, List.filter, h]
  | cons y ys ih =>
    rw [insertByCountDesc]
    by_cases hyx : y.2 ≤ x.2
    · rw [if_pos hyx]
      by_cases hx : x.2 = n <;> simp [List.filter_cons, hx]
    · rw [if_neg hyx, List.filter_cons, List.filter_cons, ih]
      have hlt : x.2 < y.2 := Nat.lt_of_not_le hyx
      by_cases hx : x.2 = n
      · have hy : ¬ (y.2 = n) := by omega
        simp [hx, hy]
      · by_cases hy : y.2 = n <;> simp [hx, hy]

/-- Stability of the sort: for every count, the entries carrying that
count appear in the sorted output in exactly the order they had in the
input. -/
theorem filter_sortByCountDesc (l : List (String × Nat)) (n : Nat) :
    (sortByCountDesc l).filter (fun p => p.2 = n) = l.filter (fun p => p.2 = n) := by
  induction l with
  | nil => rfl
  | cons x xs ih =>
    rw [sortByCountDesc, filter_insertByCountDesc, List.filter_cons]
    by_cases hx : x.2 = n <;> simp [hx, ih]

/-- `bump` keeps the key list unchanged when the key is present and
appends it at the end when it is new. -/
theorem map_fst_bump (t : List (String × Nat)) (a : String) :
    (bump t a).map Prod.fst
      = if (t.map Prod.fst).contains a then t.map Prod.fst
        else t.map Prod.fst ++ [a] := by
  induction t with
  | nil => simp [bump]
  | cons p rest ih =>
    obtain ⟨k, v⟩ := p
    by_cases h : k = a
    · subst h
      simp [bump]
    · have hak : (a == k) = false := by
        rw [beq_eq_false_iff_ne]
        exact fun hh => h hh.symm
      rw [bump, if_neg h, List.map_cons, List.map_cons, ih, List.contains_cons, hak,
        Bool.false_or]
      by_cases hmem : (rest.map Prod.fst).contains a = true
      · rw [if_pos hmem, if_pos hmem]
      · rw [if_neg hmem, if_neg hmem, List.cons_append]

/-- The keys of the tally accumulator evolve exactly like
`firstOccurrencesAux`: already-seen logins leave the key list unchanged,
new logins are appended. -/
theorem map_fst_foldl_bump (ls : List String) (t : List (String × Nat)) :
    ((ls.foldl bump t).map Prod.fst)
      = t.map Prod.fst ++ firstOccurrencesAux (t.map Prod.fst) ls := by
  induction ls generalizing t with
  | nil => simp [firstOccurrencesAux]
  | cons a ls ih =>
    rw [List.foldl_cons, ih, map_fst_bump, firstOccurrencesAux]
    by_cases h : (t.map Prod.fst).contains a = true
    · rw [if_pos h, if_pos h]
    · rw [if_neg h, if_neg h, List.append_assoc, List.singleton_append]

/-- The commit loop is the login loop: commits with a falsy author field
are skipped, the rest feed their (defaulted) login to the tally. -/
theorem foldl_tallyStep_eq_foldl_bump (commits : List Commit) (t : List (String × Nat)) :
    commits.foldl tallyStep t = (commits.filterMap commitLogin).foldl bump t := by
  induction commits generalizing t with
  | nil => rfl
  | cons c rest ih =>
    rcases hc : c.author with _ | lg <;>
      simp [List.foldl_cons, tallyStep, commitLogin, hc, ih, List.filterMap_cons]

/-- The keys of the raw tally, in order, are the distinct tallied logins
in order of first encounter. -/
theorem map_fst_rawTally (commits : List Commit) :
    (rawTally commits).map Prod.fst
      = firstOccurrences (commits.filterMap commitLogin) := by
  rw [rawTally, foldl_tallyStep_eq_foldl_bump, map_fst_foldl_bump]
  simp [firstOccurrences]

/-- **C2.** For every list of commits, `analyze_contributors` is ordered
non-increasing by count; moreover the sort is stable: for every count
value, the entries with that count appear in the same order as in the
un-sorted tally, whose keys are listed in the order the logins were first
encountered in the input list. -/
theorem analyze_contributors_sorted_stable (commits : List Commit) :
    (analyze_contributors commits).Chain' (fun p q => q.2 ≤ p.2) ∧
    (∀ n : Nat, (analyze_contributors commits).filter (fun p => p.2 = n)
        = (rawTally commits).filter (fun p => p.2 = n)) ∧
    (rawTally commits).map Prod.fst
        = firstOccurrences (commits.filterMap commitLogin) := by
  refine ⟨chain'_sortByCountDesc _, ?_, map_fst_rawTally commits⟩
  intro n
  exact filter_sortByCountDesc _ n

/-- **C1.** For every list of commits, the counts returned by
`analyze_contributors` sum to the number of commits whose author field is
non-null (truthy): commits whose author the API reports as `null` are the
only ones skipped by the tally loop. -/
theorem analyze_contributors_sum (commits : List Commit) :
    ((analyze_contributors commits).map Prod.snd).sum
      = commits.countP (fun c => c.author.isSome) := by
  simp [analyze_contributors, sum_sortByCountDesc, rawTally, sum_foldl_tallyStep]

/-- Membership in an insertion. -/
theorem mem_insertByCountDesc {z x : String × Nat} {l : List (String × Nat)} :
    z ∈ insertByCountDesc x l ↔ z = x ∨ z ∈ l := by
  induction l with
  | nil => simp [insertByCountDesc]
  | cons y ys ih =>
    by_cases h : y.2 ≤ x.2 <;> simp [insertByCountDesc, h, ih] <;> tauto

/-- Sorting neither adds nor removes entries. -/
theorem mem_sortByCountDesc {z : String × Nat} {l : List (String × Nat)} :
    z ∈ sortByCountDesc l ↔ z ∈ l := by
  induction l with
  | nil => simp [sortByCountDesc]
  | cons x xs ih => simp [sortByCountDesc, mem_insertByCountDesc, ih]

/-- Every key of the first-occurrence list is a member of the input. -/
theorem mem_firstOccurrencesAux {a : String} {seen : List String} {l : List String}
    (h : a ∈ firstOccurrencesAux seen l) : a ∈ l := by
  induction l generalizing seen with
  | nil => simpa [firstOccurrencesAux] using h
  | cons b rest ih =>
    rw [firstOccurrencesAux] at h
    by_cases hb : seen.contains b = true
    · rw [if_pos hb] at h
      exact List.mem_cons_of_mem _ (ih h)
    · rw [if_neg hb] at h
      rcases List.mem_cons.mp h with rfl | h2
      · exact List.mem_cons_self _ _
      · exact List.mem_cons_of_mem _ (ih h2)

/-- Commits skipped by the `if commit.get("author")` guard do not change
the tally. -/
theorem foldl_tallyStep_filter (commits : List Commit) (t : List (String × Nat)) :
    (commits.filter (fun c => c.author.isSome)).foldl tallyStep t
      = commits.foldl tallyStep t := by
  induction commits generalizing t with
  | nil => rfl
  | cons c rest ih =>
    rcases hc : c.author with _ | lg <;>
      simp [List.filter_cons, hc, tallyStep, commitLogin, ih]

/-- **C3, counterexample.** The claim "the key Unknown never appears in
the mapping returned by analyze_contributors" is false as stated: a
commit whose author object is truthy but carries no `login` key falls
into the `.get("login", "Unknown")` default of line 177, so the key
"Unknown" does appear for the one-commit input below. -/
theorem analyze_contributors_unknown_appears :
    "Unknown" ∈ (analyze_contributors [⟨some none⟩]).map Prod.fst := by
  decide

/-- **C3, amended.** Provided every commit whose author field is truthy
carries a `login` key, every key of the mapping returned by
`analyze_contributors` is the login of some commit of the input (so
"Unknown" can appear only as a genuine login); commits with a null
author contribute nothing (dropping them leaves the result unchanged);
and on the input `[author u1, author u1, author u2, author None]` the
result is exactly `u1 ↦ 2, u2 ↦ 1` in that order. -/
theorem analyze_contributors_no_unknown (commits : List Commit)
    (h : ∀ c ∈ commits, c.author ≠ some none) :
    (∀ k ∈ (analyze_contributors commits).map Prod.fst,
        ∃ c ∈ commits, c.author = some (some k)) ∧
    analyze_contributors commits
      = analyze_contributors (commits.filter (fun c => c.author.isSome)) ∧
    analyze_contributors
        [⟨some (some "u1")⟩, ⟨some (some "u1")⟩, ⟨some (some "u2")⟩, ⟨none⟩]
      = [("u1", 2), ("u2", 1)] := by
  refine ⟨?_, ?_, by decide⟩
  · intro k hk
    rw [List.mem_map] at hk
    obtain ⟨⟨k', n⟩, hmem, hfst⟩ := hk
    have h2 : (k', n) ∈ rawTally commits := mem_sortByCountDesc.mp hmem
    have h3 : k' ∈ (rawTally commits).map Prod.fst := List.mem_map_of_mem _ h2
    rw [map_fst_rawTally] at h3
    have h4 : k' ∈ commits.filterMap commitLogin := mem_firstOccurrencesAux h3
    rw [List.mem_filterMap] at h4
    obtain ⟨c, hc, hlogin⟩ := h4
    refine ⟨c, hc, ?_⟩
    rcases ha : c.author with _ | lg
    · rw [commitLogin, ha] at hlogin
      exact absurd hlogin (by simp)
    · rcases lg with _ | s
      · exact absurd ha (h c hc)
      · rw [commitLogin, ha] at hlogin
        simp only [Option.getD_some, Option.some.injEq] at hlogin
        simp only [← hfst]
        rw [hlogin]
  · rw [analyze_contributors, analyze_contributors, rawTally, rawTally,
      foldl_tallyStep_filter]

/-- Witness for the amended C3 theorem: its hypothesis holds for a
concrete one-commit list, and the null-author-commits-contribute-nothing
conjunct evaluates there. -/
theorem analyze_contributors_no_unknown_witness :
    analyze_contributors [Commit.mk (some (some "a"))]
      = analyze_contributors
          ([Commit.mk (some (some "a"))].filter (fun c => c.author.isSome)) :=
  (analyze_contributors_no_unknown [Commit.mk (some (some "a"))] (by decide)).2.1

/-!
## Pagination

`get_commits` (lines 73-100), `get_issues` (lines 102-131) and
`get_pull_requests` (lines 133-170) all run the same `while True` loop:
set `params["page"] = page`, issue one GET, read the JSON body (a list of
records) and `response.links` (whose `"next"` key is GitHub's
next-page signal), then

  * `break` when the body is the empty list,
  * otherwise keep (a filtered subset of) the body's records,
  * `break` when `"next" not in response.links`,
  * otherwise `page += 1` and loop.

The server is embedded as the finite list of pages it would answer with:
requesting page `i+1` returns `pages[i]`, and any page past the end of
the list is empty with no next-page link (`emptyPage`), which is how a
real server answers past the last page.  Each fetch function is defined
by recursion on the list of pages not yet requested and returns the
collected records together with the number of requests issued, so that
"never issues a request for a page after that" is a statement about the
returned request count. -/

structure Page (α : Type) where
  records : List α
  hasNext : Bool
  deriving Repr, DecidableEq

/-- The response for a page past the server's data: no records, no
"next" link. -/
def emptyPage {α : Type} : Page α := ⟨[], false⟩

/-- The server's response to a request for page `i + 1` (the loops start
at `page = 1`; the model indexes pages from 0). -/
def respAt {α : Type} (pages : List (Page α)) (i : Nat) : Page α :=
  pages.getD i emptyPage

/-- The loop's stop condition at one response: the fetched page is empty
or it carries no "next" link. -/
def stops {α : Type} (pg : Page α) : Bool :=
  pg.records.isEmpty || !pg.hasNext

/-- `GitHubPulseScraper.get_commits` (lines 73-100): concatenate page
bodies until a page is empty or has no "next" link.  Returns
`(all_commits, number of requests issued)`. -/
def get_commits {α : Type} : List (Page α) → List α × Nat
  | [] => ([], 1)
  | pg :: rest =>
    if pg.records.isEmpty then ([], 1)
    else if !pg.hasNext then (pg.records, 1)
    else
      let r := get_commits rest
      (pg.records ++ r.1, r.2 + 1)

/-- An issue record as consumed by `get_issues`: the loop only inspects
whether the dict carries a `"pull_request"` key (GitHub's pull-request
linkage marker); the rest of the record is carried opaquely as a
number so that distinct records stay distinct. -/
structure IssueRec where
  number : Nat
  pull_request : Bool
  deriving Repr, DecidableEq

/-- `GitHubPulseScraper.get_issues` (lines 102-131): same pagination as
`get_commits`, but each non-empty page's body is first filtered by
`[i for i in issues if "pull_request" not in i]` before being appended.
The emptiness stop tests the raw body (line 120), before the filter. -/
def get_issues : List (Page IssueRec) → List IssueRec × Nat
  | [] => ([], 1)
  | pg :: rest =>
    if pg.records.isEmpty then ([], 1)
    else
      let kept := pg.records.filter (fun i => !i.pull_request)
      if !pg.hasNext then (kept, 1)
      else
        let r := get_issues rest
        (kept ++ r.1, r.2 + 1)

/-- A pull-request record with the fields `generate_report` and
`get_pull_requests` consume.  ISO-8601 timestamp strings are embedded as
already-parsed `Int` instants (the code compares them with `>=` after
`datetime.fromisoformat`); `closed_at`/`merged_at` are `none` when the
JSON field is `null` or absent (falsy under `p.get(...)`). -/
structure PullRequest where
  number : Nat
  state : String
  created_at : Int
  updated_at : Int
  closed_at : Option Int
  merged_at : Option Int
  deriving Repr, DecidableEq

/-- `GitHubPulseScraper.get_pull_requests` (lines 133-170): the pulls
endpoint cannot be given a `since` parameter, so each page (sorted by
`updated` descending) is filtered client-side by
`datetime.fromisoformat(pr["updated_at"]...) >= since_date`, and the
loop additionally breaks, adding nothing, when a whole page's filtered
list is empty. -/
def get_pull_requests (since_date : Int) : List (Page PullRequest) → List PullRequest × Nat
  | [] => ([], 1)
  | pg :: rest =>
    if pg.records.isEmpty then ([], 1)
    else
      let filtered := pg.records.filter (fun p => since_date ≤ p.updated_at)
      if filtered.isEmpty then ([], 1)
      else if !pg.hasNext then (filtered, 1)
      else
        let r := get_pull_requests since_date rest
        (filtered ++ r.1, r.2 + 1)

/-! ### Pagination lemmas -/

/-- Every fetch issues at least one request. -/
theorem get_commits_requests_pos {α : Type} (pages : List (Page α)) :
    1 ≤ (get_commits pages).2 := by
  cases pages with
  | nil => exact Nat.le_refl 1
  | cons pg rest =>
    rw [get_commits]
    by_cases h1 : pg.records.isEmpty
    · rw [if_pos h1]
    · rw [if_neg h1]
      by_cases h2 : !pg.hasNext
      · rw [if_pos h2]
      · rw [if_neg h2]
        exact Nat.le_add_left 1 _

/-- `get_commits` requests pages `1 .. k`, stops exactly at the first
page that is empty or lacks a "next" link, and returns the
concatenation, in order, of the bodies of the pages it fetched. -/
theorem get_commits_spec {α : Type} (pages : List (Page α)) :
    stops (respAt pages ((get_commits pages).2 - 1)) = true ∧
    ((List.range ((get_commits pages).2 - 1)).all
        (fun i => !stops (respAt pages i))) = true ∧
    (get_commits pages).1
      = ((pages.take (get_commits pages).2).map Page.records).flatten := by
  induction pages with
  | nil => exact ⟨rfl, rfl, rfl⟩
  | cons pg rest ih =>
    rw [get_commits]
    by_cases h1 : pg.records.isEmpty
    · rw [if_pos h1]
      refine ⟨?_, rfl, ?_⟩
      · simp [respAt, stops, h1]
      · simp [List.take, h1, List.isEmpty_iff.mp h1]
    · rw [if_neg h1]
      by_cases h2 : !pg.hasNext
      · rw [if_pos h2]
        refine ⟨?_, rfl, ?_⟩
        · simp [respAt, stops, h2]
        · simp [List.take]
      · rw [if_neg h2]
        refine ⟨?_, ?_, ?_⟩
        · have : (get_commits rest).2 + 1 - 1 = ((get_commits rest).2 - 1) + 1 := by
            have := get_commits_requests_pos rest
            omega
          rw [this]
          simpa [respAt] using ih.1
        · have hk : (get_commits rest).2 + 1 - 1 = ((get_commits rest).2 - 1) + 1 := by
            have := get_commits_requests_pos rest
            omega
          rw [hk, List.range_succ_eq_map]
          simp only [List.all_cons, List.all_map, Bool.and_eq_true]
          constructor
          · simp [respAt, stops, h1, h2]
          · have h3 := ih.2.1
            simpa [respAt, Function.comp] using h3
        · have hk : (get_commits rest).2 + 1 = (get_commits rest).2 + 1 := rfl
          simp only [List.take_succ_cons, List.map_cons, List.flatten_cons]
          rw [ih.2.2]

/-- Every fetch issues at least one request. -/
theorem get_issues_requests_pos (pages : List (Page IssueRec)) :
    1 ≤ (get_issues pages).2 := by
  cases pages with
  | nil => exact Nat.le_refl 1
  | cons pg rest =>
    rw [get_issues]
    by_cases h1 : pg.records.isEmpty
    · rw [if_pos h1]
    · rw [if_neg h1]
      by_cases h2 : !pg.hasNext
      · simp only [if_pos h2]
        exact Nat.le_refl 1
      · simp only [if_neg h2]
        exact Nat.le_add_left 1 _

/-- `get_issues` requests pages `1 .. k`, stops exactly at the first raw
page that is empty or lacks a "next" link (the stop tests the body
before the pull-request filter), and returns the concatenation, in
order, of the kept (non-pull-request) records of the pages it
fetched. -/
theorem get_issues_spec (pages : List (Page IssueRec)) :
    stops (respAt pages ((get_issues pages).2 - 1)) = true ∧
    ((List.range ((get_issues pages).2 - 1)).all
        (fun i => !stops (respAt pages i))) = true ∧
    (get_issues pages).1
      = ((pages.take (get_issues pages).2).map
          (fun pg => pg.records.filter (fun i => !i.pull_request))).flatten := by
  induction pages with
  | nil => exact ⟨rfl, rfl, rfl⟩
  | cons pg rest ih =>
    rw [get_issues]
    by_cases h1 : pg.records.isEmpty
    · rw [if_pos h1]
      refine ⟨?_, rfl, ?_⟩
      · simp [respAt, stops, h1]
      · simp [List.take, List.isEmpty_iff.mp h1]
    · rw [if_neg h1]
      by_cases h2 : !pg.hasNext
      · simp only [if_pos h2]
        refine ⟨?_, rfl, ?_⟩
        · simp [respAt, stops, h2]
        · simp [List.take]
      · simp only [if_neg h2]
        refine ⟨?_, ?_, ?_⟩
        · have hk : (get_issues rest).2 + 1 - 1 = ((get_issues rest).2 - 1) + 1 := by
            have := get_issues_requests_pos rest
            omega
          rw [hk]
          simpa [respAt] using ih.1
        · have hk : (get_issues rest).2 + 1 - 1 = ((get_issues rest).2 - 1) + 1 := by
            have := get_issues_requests_pos rest
            omega
          rw [hk, List.range_succ_eq_map]
          simp only [List.all_cons, List.all_map, Bool.and_eq_true]
          constructor
          · simp [respAt, stops, h1, h2]
          · simpa [respAt, Function.comp] using ih.2.1
        · simp only [List.take_succ_cons, List.map_cons, List.flatten_cons]
          rw [ih.2.2]

/-- **C4.** For every sequence of pages the API returns for the commits
and issues endpoints: each loop stops requesting exactly at the first
fetched page that is empty or carries no "next" link (every earlier
fetched page was non-empty and had a "next" link, and no page after the
stopping one is requested — the request count is exactly the stop index
plus one), and the records of every fetched page (for issues, those
surviving the endpoint's pull-request filter) are concatenated in
order. -/
theorem pagination_stops_exactly {α : Type} (cpages : List (Page α))
    (ipages : List (Page IssueRec)) :
    (stops (respAt cpages ((get_commits cpages).2 - 1)) = true ∧
      ((List.range ((get_commits cpages).2 - 1)).all
          (fun i => !stops (respAt cpages i))) = true ∧
      (get_commits cpages).1
        = ((cpages.take (get_commits cpages).2).map Page.records).flatten) ∧
    (stops (respAt ipages ((get_issues ipages).2 - 1)) = true ∧
      ((List.range ((get_issues ipages).2 - 1)).all
          (fun i => !stops (respAt ipages i))) = true ∧
      (get_issues ipages).1
        = ((ipages.take (get_issues ipages).2).map
            (fun pg => pg.records.filter (fun i => !i.pull_request))).flatten) :=
  ⟨get_commits_spec cpages, get_issues_spec ipages⟩

/-- A filtered list satisfies the filter's predicate throughout. -/
theorem all_filter_self {α : Type} (l : List α) (p : α → Bool) :
    (l.filter p).all p = true := by
  rw [List.all_eq_true]
  intro x hx
  exact (List.mem_filter.mp hx).2

/-- **C5.** Entries carrying the `"pull_request"` linkage marker never
reach the list `get_issues` returns, and from every fetched page exactly
the entries without the marker are kept, in order: the result is the
in-order concatenation of each fetched page's records with the marked
entries removed. -/
theorem get_issues_excludes_pull_requests (pages : List (Page IssueRec)) :
    ((get_issues pages).1.all (fun i => !i.pull_request)) = true ∧
    (get_issues pages).1
      = ((pages.take (get_issues pages).2).map
          (fun pg => pg.records.filter (fun i => !i.pull_request))).flatten := by
  refine ⟨?_, (get_issues_spec pages).2.2⟩
  rw [(get_issues_spec pages).2.2, List.all_eq_true]
  intro x hx
  rw [List.mem_flatten] at hx
  obtain ⟨l, hl, hxl⟩ := hx
  rw [List.mem_map] at hl
  obtain ⟨pg, _, rfl⟩ := hl
  exact (List.mem_filter.mp hxl).2

/-- **C10.** For every `since_date` and page sequence, every record
returned by `get_pull_requests` has `updated_at ≥ since_date`: pages are
filtered against the window before being kept, so no out-of-window pull
request appears in the result. -/
theorem get_pull_requests_within_window (since_date : Int)
    (pages : List (Page PullRequest)) :
    ((get_pull_requests since_date pages).1.all
        (fun p => decide (since_date ≤ p.updated_at))) = true := by
  induction pages with
  | nil => rfl
  | cons pg rest ih =>
    rw [get_pull_requests]
    by_cases h1 : pg.records.isEmpty
    · rw [if_pos h1]; rfl
    · rw [if_neg h1]
      by_cases h2 : (pg.records.filter (fun p => since_date ≤ p.updated_at)).isEmpty
      · simp only [if_pos h2]; rfl
      · simp only [if_neg h2]
        by_cases h3 : !pg.hasNext
        · simp only [if_pos h3]
          exact all_filter_self _ _
        · simp only [if_neg h3]
          rw [List.all_append, all_filter_self, Bool.true_and]
          exact ih

/-!
## Report aggregation (`generate_report`, lines 181-213)

Lines 197-200 classify the fetched pull requests.  `p.get("closed_at")`
and `p.get("merged_at")` are truthiness tests on optional timestamps,
embedded as `Option.isSome`; the window test compares the parsed
timestamp with `since_date` via `>=`. -/

/-- Line 198's predicate: `p["state"] == "closed" and p.get("closed_at")
and datetime.fromisoformat(...) >= since_date`. -/
def closedWithin (since_date : Int) (p : PullRequest) : Bool :=
  p.state = "closed" &&
    match p.closed_at with
    | some t => since_date ≤ t
    | none => false

/-- `closed_prs` (line 198): pull requests closed within the window. -/
def closed_prs (since_date : Int) (prs : List PullRequest) : List PullRequest :=
  prs.filter (closedWithin since_date)

/-- `prs_merged` (line 199): the closed ones with a truthy `merged_at`. -/
def prs_merged (since_date : Int) (prs : List PullRequest) : List PullRequest :=
  (closed_prs since_date prs).filter (fun p => p.merged_at.isSome)

/-- `prs_closed_unmerged` (line 200): the closed ones with a falsy
`merged_at`. -/
def prs_closed_unmerged (since_date : Int) (prs : List PullRequest) : List PullRequest :=
  (closed_prs since_date prs).filter (fun p => !p.merged_at.isSome)

/-- **C6.** Among the pull requests classified as closed, the ones with
a `merged_at` timestamp are exactly the merged set and the ones without
are exactly the closed-unmerged set, and the two sets partition the
closed set: membership in each is characterized, and the lengths add up
(so each closed pull request is counted once and only once). -/
theorem prs_merged_partition (since_date : Int) (prs : List PullRequest) :
    (∀ p, p ∈ prs_merged since_date prs
        ↔ p ∈ closed_prs since_date prs ∧ p.merged_at.isSome = true) ∧
    (∀ p, p ∈ prs_closed_unmerged since_date prs
        ↔ p ∈ closed_prs since_date prs ∧ ¬ p.merged_at.isSome = true) ∧
    (prs_merged since_date prs).length + (prs_closed_unmerged since_date prs).length
      = (closed_prs since_date prs).length := by
  refine ⟨?_, ?_, ?_⟩
  · intro p
    rw [prs_merged, List.mem_filter]
  · intro p
    rw [prs_closed_unmerged, List.mem_filter]
    simp
  · rw [prs_merged, prs_closed_unmerged]
    exact ((closed_prs since_date prs).length_eq_length_filter_add
      (fun p => p.merged_at.isSome)).symm

/-!
## JSON export (`export_json`, lines 215-237, and `utils.export_to_json`,
lines 12-21)

`export_json` assembles one Python dict `data` (whose insertion order the
JSON writer preserves) and hands it to `export_to_json`, which serializes
it with `json.dump` and writes it to the output path.  The JSON values
the scraper passes around (parsed API responses) are embedded as the
inductive `JVal`; `json.dump`'s text form is modelled by `dumpJson` and
`json.loads` by `parseJson`, defined below, and the round-trip between
them is proved rather than assumed.  `dumpJson` writes the compact form:
`json.dump(..., indent=2)` differs from it only in inter-token
whitespace, which carries no information.  It agrees with `json.dump`
verbatim on values whose strings contain only printable ASCII without
quotes or backslashes (`cleanB` below); outside that fragment `json.dump`
would escape characters, which this model does not reproduce. -/

mutual
inductive JVal where
  | null
  | bool (b : Bool)
  | num (n : Int)
  | str (s : String)
  | arr (elems : JArr)
  | obj (fields : JObj)
  deriving Repr
inductive JArr where
  | nil
  | cons (head : JVal) (tail : JArr)
  deriving Repr
inductive JObj where
  | nil
  | cons (key : String) (val : JVal) (tail : JObj)
  deriving Repr
end

/-- The double-quote character. -/
def quoteChar : Char := Char.ofNat 34

/-- The backslash character. -/
def backslashChar : Char := Char.ofNat 92

/-- The opening-brace character. -/
def lbraceChar : Char := Char.ofNat 123

/-- The closing-brace character. -/
def rbraceChar : Char := Char.ofNat 125

/-! An upper bound on the parser fuel a value needs, mutually defined
over the three JSON sorts. -/
mutual
def jsize : JVal → Nat
  | .null => 1
  | .bool _ => 1
  | .num _ => 1
  | .str _ => 1
  | .arr xs => 1 + jsizeElems xs
  | .obj fs => 1 + jsizeFields fs
def jsizeElems : JArr → Nat
  | .nil => 1
  | .cons x xs => 1 + max (jsize x) (jsizeElems xs)
def jsizeFields : JObj → Nat
  | .nil => 1
  | .cons _ v fs => 1 + max (jsize v) (jsizeFields fs)
end

/-- Decimal digits of a positive number, most significant first; the
first argument is structural fuel (`n` itself suffices). -/
def natCharsAux : Nat → Nat → List Char
  | 0, _ => []
  | _ + 1, 0 => []
  | fuel + 1, n + 1 => natCharsAux fuel ((n + 1) / 10) ++ [Char.ofNat (48 + (n + 1) % 10)]

/-- Decimal representation of a natural number. -/
def natChars (n : Nat) : List Char :=
  if n = 0 then [Char.ofNat 48] else natCharsAux n n

/-! The model of `json.dump`: the compact serialized text of a value, as
a character list. -/
mutual
def dumpJson : JVal → List Char
  | .null => "null".data
  | .bool true => "true".data
  | .bool false => "false".data
  | .num n => if n < 0 then '-' :: natChars n.natAbs else natChars n.toNat
  | .str s => quoteChar :: s.data ++ [quoteChar]
  | .arr xs => '[' :: dumpElems xs ++ [']']
  | .obj fs => lbraceChar :: dumpFields fs ++ [rbraceChar]
def dumpElems : JArr → List Char
  | .nil => []
  | .cons x .nil => dumpJson x
  | .cons x (.cons y ys) => dumpJson x ++ ',' :: dumpElems (.cons y ys)
def dumpFields : JObj → List Char
  | .nil => []
  | .cons k v .nil => quoteChar :: k.data ++ quoteChar :: ':' :: dumpJson v
  | .cons k v (.cons k2 v2 fs) =>
      (quoteChar :: k.data ++ quoteChar :: ':' :: dumpJson v)
        ++ ',' :: dumpFields (.cons k2 v2 fs)
end

/-- A character `json.dump` writes verbatim inside a string literal:
printable ASCII, no quote, no backslash. -/
def goodChar (c : Char) : Bool :=
  32 ≤ c.toNat && c.toNat ≤ 126 && c != quoteChar && c != backslashChar

/-! A value inside the fragment on which `dumpJson` agrees with
`json.dump`: every string (and every object key) consists of `goodChar`
characters. -/
mutual
def cleanB : JVal → Bool
  | .null => true
  | .bool _ => true
  | .num _ => true
  | .str s => s.data.all goodChar
  | .arr xs => cleanElemsB xs
  | .obj fs => cleanFieldsB fs
def cleanElemsB : JArr → Bool
  | .nil => true
  | .cons x xs => cleanB x && cleanElemsB xs
def cleanFieldsB : JObj → Bool
  | .nil => true
  | .cons k v fs => k.data.all goodChar && cleanB v && cleanFieldsB fs
end

/-- Greedily consume decimal digits, folding them onto `acc`. -/
def parseDigits : List Char → Nat → Nat × List Char
  | [], acc => (acc, [])
  | c :: cs, acc =>
    if c.isDigit then parseDigits cs (acc * 10 + (c.toNat - 48)) else (acc, c :: cs)

/-- Consume characters up to the closing quote of a string literal. -/
def parseStringBody : List Char → Option (List Char × List Char)
  | [] => none
  | c :: cs =>
    if c = quoteChar then some ([], cs)
    else (parseStringBody cs).map (fun p => (c :: p.1, p.2))

/-! The model of `json.loads`, fuel-indexed: parse one value and return
it with the unconsumed remainder. -/
mutual
def parseVal : Nat → List Char → Option (JVal × List Char)
  | 0, _ => none
  | fuel + 1, cs =>
    match cs with
    | [] => none
    | c :: rest =>
      if c = 'n' then
        if rest.take 3 = ['u', 'l', 'l'] then some (.null, rest.drop 3) else none
      else if c = 't' then
        if rest.take 3 = ['r', 'u', 'e'] then some (.bool true, rest.drop 3) else none
      else if c = 'f' then
        if rest.take 4 = ['a', 'l', 's', 'e'] then some (.bool false, rest.drop 4) else none
      else if c = quoteChar then
        (parseStringBody rest).map (fun p => (.str (String.mk p.1), p.2))
      else if c = '[' then
        match rest with
        | [] => none
        | d :: rest2 =>
          if d = ']' then some (.arr .nil, rest2)
          else (parseElems fuel (d :: rest2)).map (fun p => (.arr p.1, p.2))
      else if c = lbraceChar then
        match rest with
        | [] => none
        | d :: rest2 =>
          if d = rbraceChar then some (.obj .nil, rest2)
          else (parseFields fuel (d :: rest2)).map (fun p => (.obj p.1, p.2))
      else if c = '-' then
        let p := parseDigits rest 0
        some (.num (-(p.1 : Int)), p.2)
      else if c.isDigit then
        let p := parseDigits (c :: rest) 0
        some (.num (p.1 : Int), p.2)
      else none
def parseElems : Nat → List Char → Option (JArr × List Char)
  | 0, _ => none
  | fuel + 1, cs =>
    (parseVal fuel cs).bind (fun p =>
      match p.2 with
      | [] => none
      | d :: rest =>
        if d = ',' then (parseElems fuel rest).map (fun q => (.cons p.1 q.1, q.2))
        else if d = ']' then some (.cons p.1 .nil, rest)
        else none)
def parseFields : Nat → List Char → Option (JObj × List Char)
  | 0, _ => none
  | fuel + 1, cs =>
    match cs with
    | [] => none
    | c :: rest =>
      if c = quoteChar then
        (parseStringBody rest).bind (fun kp =>
          match kp.2 with
          | [] => none
          | d :: rest2 =>
            if d = ':' then
              (parseVal fuel rest2).bind (fun vp =>
                match vp.2 with
                | [] => none
                | e :: rest3 =>
                  if e = ',' then
                    (parseFields fuel rest3).map
                      (fun q => (.cons (String.mk kp.1) vp.1 q.1, q.2))
                  else if e = rbraceChar then
                    some (.cons (String.mk kp.1) vp.1 .nil, rest3)
                  else none)
            else none)
      else none
end

/-- Parse a complete document: fuel `length + 1` is enough for anything
`dumpJson` writes, and the whole input must be consumed. -/
def parseJson (cs : List Char) : Option JVal :=
  match parseVal (cs.length + 1) cs with
  | some (v, []) => some v
  | _ => none

/-- First binding of a key in an object's field list (the keys
`export_json` writes are distinct, so first and last agree). -/
def lookupField : JObj → String → Option JVal
  | .nil, _ => none
  | .cons k v fs, key => if k = key then some v else lookupField fs key

/-- Dict lookup on a parsed document. -/
def jLookup : JVal → String → Option JVal
  | .obj fs, key => lookupField fs key
  | _, _ => none

/-! ### Round-trip lemmas: numbers -/

/-- True when the list does not start with a digit, so that a greedy
number parse stops exactly here. -/
def noDigitHead : List Char → Bool
  | [] => true
  | c :: _ => !c.isDigit

/-- One step of digit accumulation, as `parseDigits` performs it. -/
def digitStep (k : Nat) (c : Char) : Nat :=
  k * 10 + (c.toNat - 48)

/-- A greedy digit parse stops at once on a non-digit boundary. -/
theorem parseDigits_stop (rest : List Char) (acc : Nat)
    (h : noDigitHead rest = true) : parseDigits rest acc = (acc, rest) := by
  cases rest with
  | nil => rfl
  | cons c cs =>
    rw [noDigitHead] at h
    rw [parseDigits, if_neg]
    intro hc
    rw [hc] at h
    cases h

/-- A greedy digit parse consumes a block of digits whole, folding it
onto the accumulator. -/
theorem parseDigits_append (ds : List Char) (rest : List Char) (acc : Nat)
    (h : ds.all Char.isDigit = true) :
    parseDigits (ds ++ rest) acc = parseDigits rest (ds.foldl digitStep acc) := by
  induction ds generalizing acc with
  | nil => rfl
  | cons c cs ih =>
    rw [List.all_cons, Bool.and_eq_true] at h
    rw [List.cons_append, parseDigits, if_pos h.1, List.foldl_cons]
    exact ih _ h.2

/-- The digit characters written by `natCharsAux` are digits that decode
back to their values. -/
theorem digitChar_spec (r : Nat) (h : r < 10) :
    (Char.ofNat (48 + r)).isDigit = true ∧ (Char.ofNat (48 + r)).toNat - 48 = r := by
  interval_cases r <;> exact ⟨by decide, by decide⟩

/-- Every character `natCharsAux` writes is a digit. -/
theorem natCharsAux_all_digits (fuel n : Nat) :
    (natCharsAux fuel n).all Char.isDigit = true := by
  induction fuel generalizing n with
  | zero => rfl
  | succ f ih =>
    cases n with
    | zero => rfl
    | succ m =>
      rw [natCharsAux, List.all_append, ih, Bool.true_and, List.all_cons,
        (digitChar_spec _ (Nat.mod_lt _ (by omega))).1]
      rfl

/-- Folding the digit step over `natCharsAux fuel n` recovers `n` (shifted
past the accumulator). -/
theorem natCharsAux_foldl (fuel : Nat) : ∀ n acc, n ≤ fuel →
    (natCharsAux fuel n).foldl digitStep acc
      = acc * 10 ^ (natCharsAux fuel n).length + n := by
  induction fuel with
  | zero =>
    intro n acc hn
    interval_cases n
    simp [natCharsAux]
  | succ f ih =>
    intro n acc hn
    cases n with
    | zero => simp [natCharsAux]
    | succ m =>
      rw [natCharsAux, List.foldl_append, List.length_append]
      have hq : (m + 1) / 10 ≤ f := by
        have h1 : (m + 1) / 10 < m + 1 := Nat.div_lt_self (by omega) (by omega)
        omega
      rw [ih _ acc hq]
      have hqr : 10 * ((m + 1) / 10) + (m + 1) % 10 = m + 1 := Nat.div_add_mod _ _
      rw [List.foldl_cons, List.foldl_nil, digitStep,
        (digitChar_spec _ (Nat.mod_lt _ (by omega))).2]
      rw [List.length_singleton, pow_add, pow_one, ← Nat.mul_assoc]
      generalize acc * 10 ^ (natCharsAux f ((m + 1) / 10)).length = A
      omega

/-- `natChars n` is non-empty, starts with a digit, and consists of
digits. -/
theorem natChars_spec (n : Nat) :
    (∃ c cs, natChars n = c :: cs ∧ c.isDigit = true) ∧
      (natChars n).all Char.isDigit = true := by
  cases n with
  | zero => exact ⟨⟨Char.ofNat 48, [], rfl, by decide⟩, by decide⟩
  | succ m =>
    have hall : (natChars (m + 1)).all Char.isDigit = true := by
      rw [natChars, if_neg (by omega)]
      exact natCharsAux_all_digits _ _
    refine ⟨?_, hall⟩
    have hne : natChars (m + 1) ≠ [] := by
      rw [natChars, if_neg (by omega), natCharsAux]
      intro hcontra
      exact absurd hcontra (List.append_ne_nil_of_right_ne_nil _ (by simp))
    obtain ⟨c, cs, hcons⟩ := List.exists_cons_of_ne_nil hne
    refine ⟨c, cs, hcons, ?_⟩
    have := List.all_eq_true.mp hall c (by rw [hcons]; exact List.mem_cons_self _ _)
    exact this

/-- Parsing the decimal representation of `n` followed by a non-digit
boundary yields exactly `n`. -/
theorem parseDigits_natChars (n : Nat) (rest : List Char)
    (h : noDigitHead rest = true) :
    parseDigits (natChars n ++ rest) 0 = (n, rest) := by
  rw [parseDigits_append _ _ _ (natChars_spec n).2]
  cases n with
  | zero =>
    rw [natChars, if_pos rfl, List.foldl_cons, List.foldl_nil]
    rw [show digitStep 0 (Char.ofNat 48) = 0 by decide]
    exact parseDigits_stop _ _ h
  | succ m =>
    rw [natChars, if_neg (by omega), natCharsAux_foldl _ _ _ (Nat.le_refl _)]
    rw [Nat.zero_mul, Nat.zero_add]
    exact parseDigits_stop _ _ h

/-! ### Round-trip lemmas: strings -/

/-- Rebuilding a string from its character data gives the string back. -/
theorem String.mk_data_self (s : String) : String.mk s.data = s := by
  cases s
  rfl

/-- A `goodChar` is not the quote character. -/
theorem goodChar_ne_quote {c : Char} (h : goodChar c = true) : ¬ c = quoteChar := by
  rw [goodChar] at h
  simp only [Bool.and_eq_true, bne_iff_ne, ne_eq] at h
  exact h.1.2

/-- Scanning a clean string body stops exactly at the closing quote. -/
theorem parseStringBody_round (content : List Char) (rest : List Char)
    (h : content.all goodChar = true) :
    parseStringBody (content ++ quoteChar :: rest) = some (content, rest) := by
  induction content with
  | nil => rw [List.nil_append, parseStringBody, if_pos rfl]
  | cons c cs ih =>
    rw [List.all_cons, Bool.and_eq_true] at h
    rw [List.cons_append, parseStringBody, if_neg (goodChar_ne_quote h.1), ih h.2]
    rfl

/-! ### Round-trip lemmas: dispatch on the first serialized character -/

/-- A digit character is not any given non-digit character. -/
theorem digit_ne {c g : Char} (hc : c.isDigit = true) (hg : g.isDigit = false) :
    ¬ c = g := by
  intro h
  rw [h, hg] at hc
  cases hc

/-- The first character of any serialized value is neither a closing
bracket nor a closing brace, and the serialization is non-empty. -/
theorem dumpJson_head (v : JVal) :
    ∃ c cs, dumpJson v = c :: cs ∧ ¬ c = ']' ∧ ¬ c = rbraceChar := by
  cases v with
  | null => exact ⟨'n', _, rfl, by decide, by decide⟩
  | bool b =>
    cases b with
    | true => exact ⟨'t', _, rfl, by decide, by decide⟩
    | false => exact ⟨'f', _, rfl, by decide, by decide⟩
  | num n =>
    rw [dumpJson]
    by_cases hn : n < 0
    · exact ⟨'-', _, by rw [if_pos hn], by decide, by decide⟩
    · obtain ⟨⟨c, cs, hcons, hdig⟩, _⟩ := natChars_spec n.toNat
      exact ⟨c, cs, by rw [if_neg hn, hcons],
        digit_ne hdig (by decide), digit_ne hdig (by decide)⟩
  | str s => exact ⟨quoteChar, _, rfl, by decide, by decide⟩
  | arr xs => exact ⟨'[', _, rfl, by decide, by decide⟩
  | obj fs => exact ⟨lbraceChar, _, rfl, by decide, by decide⟩

/-- `jsize` is positive on each sort. -/
theorem jsize_pos (v : JVal) : 1 ≤ jsize v := by
  cases v <;> simp [jsize]

/-- `jsizeElems` is positive. -/
theorem jsizeElems_pos (xs : JArr) : 1 ≤ jsizeElems xs := by
  cases xs <;> simp [jsizeElems]

/-- `jsizeFields` is positive. -/
theorem jsizeFields_pos (fs : JObj) : 1 ≤ jsizeFields fs := by
  cases fs <;> simp [jsizeFields]

/-- A non-empty serialized element list starts with the first element's
first character, which closes nothing. -/
theorem dumpElems_cons_head (x : JVal) (xs : JArr) :
    ∃ c cs, dumpElems (.cons x xs) = c :: cs ∧ ¬ c = ']' ∧ ¬ c = rbraceChar := by
  obtain ⟨c, cs, hcons, h1, h2⟩ := dumpJson_head x
  cases xs with
  | nil => exact ⟨c, cs, by rw [dumpElems, hcons], h1, h2⟩
  | cons y ys =>
    exact ⟨c, cs ++ ',' :: dumpElems (.cons y ys),
      by rw [dumpElems, hcons, List.cons_append], h1, h2⟩

/-- A non-empty serialized field list starts with the opening quote of
its first key. -/
theorem dumpFields_cons_head (k : String) (v : JVal) (fs : JObj) :
    ∃ cs, dumpFields (.cons k v fs) = quoteChar :: cs := by
  cases fs with
  | nil =>
    refine ⟨k.data ++ (quoteChar :: ':' :: dumpJson v), ?_⟩
    rw [dumpFields, List.cons_append]
  | cons k2 v2 fs2 =>
    refine ⟨(k.data ++ (quoteChar :: ':' :: dumpJson v))
      ++ (',' :: dumpFields (.cons k2 v2 fs2)), ?_⟩
    rw [dumpFields, List.cons_append, List.cons_append]

/-- The parser reads back exactly what the writer wrote: for every clean
value, parsing its serialization (followed by any non-digit remainder)
succeeds, returns the value, and consumes exactly the serialization.
Proved for all three JSON sorts simultaneously by induction on the
parser's fuel. -/
theorem parse_dump_round (fuel : Nat) :
    (∀ v rest, jsize v ≤ fuel → cleanB v = true → noDigitHead rest = true →
        parseVal fuel (dumpJson v ++ rest) = some (v, rest)) ∧
    (∀ xs rest, jsizeElems xs ≤ fuel → cleanElemsB xs = true → xs ≠ JArr.nil →
        parseElems fuel (dumpElems xs ++ ']' :: rest) = some (xs, rest)) ∧
    (∀ fs rest, jsizeFields fs ≤ fuel → cleanFieldsB fs = true → fs ≠ JObj.nil →
        parseFields fuel (dumpFields fs ++ rbraceChar :: rest) = some (fs, rest)) := by
  induction fuel with
  | zero =>
    refine ⟨?_, ?_, ?_⟩
    · intro v _ hsz _ _
      have := jsize_pos v
      omega
    · intro xs _ hsz _ _
      have := jsizeElems_pos xs
      omega
    · intro fs _ hsz _ _
      have := jsizeFields_pos fs
      omega
  | succ fuel ih =>
    obtain ⟨ihV, ihE, ihF⟩ := ih
    refine ⟨?_, ?_, ?_⟩
    · intro v rest hsz hclean hnd
      cases v with
      | null => rfl
      | bool b => cases b <;> rfl
      | num n =>
        by_cases hn : n < 0
        · rw [dumpJson, if_pos hn, List.cons_append]
          simp only [parseVal]
          rw [if_neg (show ¬ ('-' = 'n') by decide),
            if_neg (show ¬ ('-' = 't') by decide),
            if_neg (show ¬ ('-' = 'f') by decide),
            if_neg (show ¬ ('-' = quoteChar) by decide),
            if_neg (show ¬ ('-' = '[') by decide),
            if_neg (show ¬ ('-' = lbraceChar) by decide)]
          simp only [eq_self_iff_true, if_true]
          rw [parseDigits_natChars n.natAbs rest hnd]
          simp [abs_of_neg hn]
        · rw [dumpJson, if_neg hn]
          obtain ⟨⟨c, cs, hcons, hdig⟩, _⟩ := natChars_spec n.toNat
          rw [hcons, List.cons_append]
          simp only [parseVal]
          rw [if_neg (digit_ne hdig (by decide)), if_neg (digit_ne hdig (by decide)),
            if_neg (digit_ne hdig (by decide)), if_neg (digit_ne hdig (by decide)),
            if_neg (digit_ne hdig (by decide)), if_neg (digit_ne hdig (by decide)),
            if_neg (digit_ne hdig (by decide)), if_pos hdig]
          rw [← List.cons_append, ← hcons, parseDigits_natChars n.toNat rest hnd]
          simp [Int.toNat_of_nonneg (not_lt.mp hn)]
      | str s =>
        simp only [cleanB] at hclean
        rw [dumpJson]
        simp only [List.cons_append, List.append_assoc, List.singleton_append,
          List.nil_append]
        simp only [parseVal]
        rw [if_neg (show ¬ (quoteChar = 'n') by decide),
          if_neg (show ¬ (quoteChar = 't') by decide),
          if_neg (show ¬ (quoteChar = 'f') by decide)]
        simp only [eq_self_iff_true, if_true]
        rw [parseStringBody_round _ _ hclean]
        simp [String.mk_data_self]
      | arr xs =>
        cases xs with
        | nil => rfl
        | cons x tail =>
          simp only [jsize] at hsz
          simp only [cleanB] at hclean
          rw [dumpJson]
          simp only [List.cons_append, List.append_assoc, List.singleton_append,
            List.nil_append]
          simp only [parseVal]
          rw [if_neg (show ¬ ('[' = 'n') by decide),
            if_neg (show ¬ ('[' = 't') by decide),
            if_neg (show ¬ ('[' = 'f') by decide),
            if_neg (show ¬ ('[' = quoteChar) by decide)]
          simp only [eq_self_iff_true, if_true]
          obtain ⟨c, cs, hcons, hc1, _⟩ := dumpElems_cons_head x tail
          rw [hcons, List.cons_append]
          simp only []
          rw [if_neg hc1, ← List.cons_append, ← hcons,
            ihE (.cons x tail) rest (by omega) hclean (by intro hh; cases hh)]
          rfl
      | obj fs =>
        cases fs with
        | nil => rfl
        | cons k v tail =>
          simp only [jsize] at hsz
          simp only [cleanB] at hclean
          rw [dumpJson]
          simp only [List.cons_append, List.append_assoc, List.singleton_append,
            List.nil_append]
          simp only [parseVal]
          rw [if_neg (show ¬ (lbraceChar = 'n') by decide),
            if_neg (show ¬ (lbraceChar = 't') by decide),
            if_neg (show ¬ (lbraceChar = 'f') by decide),
            if_neg (show ¬ (lbraceChar = quoteChar) by decide),
            if_neg (show ¬ (lbraceChar = '[') by decide)]
          simp only [eq_self_iff_true, if_true]
          obtain ⟨cs, hcons⟩ := dumpFields_cons_head k v tail
          rw [hcons, List.cons_append]
          simp only []
          rw [if_neg (show ¬ (quoteChar = rbraceChar) by decide),
            ← List.cons_append, ← hcons,
            ihF (.cons k v tail) rest (by omega) hclean (by intro hh; cases hh)]
          rfl
    · intro xs rest hsz hclean hne
      cases xs with
      | nil => exact absurd rfl hne
      | cons x tail =>
        simp only [jsizeElems] at hsz
        simp only [cleanElemsB, Bool.and_eq_true] at hclean
        cases tail with
        | nil =>
          rw [dumpElems]
          simp only [parseElems]
          rw [ihV x (']' :: rest) (by omega) hclean.1 rfl]
          rfl
        | cons y ys =>
          rw [dumpElems, List.append_assoc, List.cons_append]
          simp only [parseElems]
          rw [ihV x (',' :: (dumpElems (.cons y ys) ++ ']' :: rest))
            (by omega) hclean.1 rfl]
          simp only [Option.some_bind, eq_self_iff_true, if_true]
          rw [ihE (.cons y ys) rest (by omega) hclean.2 (by intro hh; cases hh)]
          rfl
    · intro fs rest hsz hclean hne
      cases fs with
      | nil => exact absurd rfl hne
      | cons k v tail =>
        simp only [jsizeFields] at hsz
        simp only [cleanFieldsB, Bool.and_eq_true] at hclean
        cases tail with
        | nil =>
          rw [dumpFields]
          simp only [List.cons_append, List.append_assoc]
          simp only [parseFields, eq_self_iff_true, if_true]
          rw [parseStringBody_round _ _ hclean.1.1]
          simp only [Option.some_bind, eq_self_iff_true, if_true]
          rw [ihV v (rbraceChar :: rest) (by omega) hclean.1.2 rfl]
          simp only [Option.some_bind]
          rw [if_neg (show ¬ (rbraceChar = ',') by decide)]
          simp only [eq_self_iff_true, if_true]
        | cons k2 v2 fs2 =>
          rw [dumpFields]
          simp only [List.cons_append, List.append_assoc]
          simp only [parseFields, eq_self_iff_true, if_true]
          rw [parseStringBody_round _ _ hclean.1.1]
          simp only [Option.some_bind, eq_self_iff_true, if_true]
          rw [ihV v (',' :: (dumpFields (.cons k2 v2 fs2) ++ rbraceChar :: rest))
              (by omega) hclean.1.2 rfl]
          simp only [Option.some_bind, eq_self_iff_true, if_true]
          rw [ihF (.cons k2 v2 fs2) rest (by omega) hclean.2 (by intro hh; cases hh),
            String.mk_data_self]
          rfl

/-- The parser fuel a value needs is at most the length of its
serialization, so `parseJson`'s fuel of `length + 1` always suffices for
a dumped document.  Proved with the mutual recursor of the three JSON
sorts. -/
theorem jsize_le_length_dump (v : JVal) : jsize v ≤ (dumpJson v).length := by
  refine @JVal.rec (fun v => jsize v ≤ (dumpJson v).length)
    (fun xs => jsizeElems xs ≤ (dumpElems xs).length + 1)
    (fun fs => jsizeFields fs ≤ (dumpFields fs).length + 1)
    ?_ ?_ ?_ ?_ ?_ ?_ ?_ ?_ ?_ ?_ v
  · decide
  · intro b
    cases b <;> decide
  · intro n
    rw [jsize, dumpJson]
    by_cases hn : n < 0
    · rw [if_pos hn]
      simp
    · rw [if_neg hn]
      obtain ⟨⟨c, cs, hcons, _⟩, _⟩ := natChars_spec n.toNat
      rw [hcons]
      simp
  · intro s
    simp [jsize, dumpJson]
  · intro xs ih
    rw [jsize, dumpJson]
    simp only [List.length_append, List.length_cons, List.length_singleton]
    omega
  · intro fs ih
    rw [jsize, dumpJson]
    simp only [List.length_append, List.length_cons, List.length_singleton]
    omega
  · simp [jsizeElems, dumpElems]
  · intro x tail ihx ihtail
    cases tail with
    | nil =>
      rw [jsizeElems, dumpElems]
      have h1 := jsize_pos x
      simp only [jsizeElems]
      omega
    | cons y ys =>
      rw [jsizeElems, dumpElems]
      simp only [List.length_append, List.length_cons]
      omega
  · simp [jsizeFields, dumpFields]
  · intro k v2 tail ihv ihtail
    cases tail with
    | nil =>
      rw [jsizeFields, dumpFields]
      simp only [jsizeFields, List.length_cons, List.length_append]
      omega
    | cons k2 w fs2 =>
      rw [jsizeFields, dumpFields]
      simp only [List.length_append, List.length_cons]
      omega

/-- Serialize-then-parse is the identity on clean values: the model of
`json.loads` applied to the model of `json.dump` returns the original
document. -/
theorem parseJson_dumpJson (v : JVal) (h : cleanB v = true) :
    parseJson (dumpJson v) = some v := by
  rw [parseJson]
  have h1 : jsize v ≤ (dumpJson v).length + 1 :=
    le_trans (jsize_le_length_dump v) (Nat.le_succ _)
  have h2 := (parse_dump_round ((dumpJson v).length + 1)).1 v [] h1 h rfl
  rw [List.append_nil] at h2
  rw [h2]

/-!
## The export pipeline (`export_json`, lines 215-237, and
`utils.export_to_json`, lines 12-21)

`export_to_json` runs `with open(output_file, "w") as f: json.dump(data,
f)` inside `try/except`.  Its interaction with the file at the output
path is embedded explicitly:

  * opening with mode `"w"` truncates the file before anything is
    written;
  * `json.dump` streams the document to the file handle, so an exception
    raised midway (for example a non-serializable value deep in `data`)
    leaves the prefix emitted so far in the file when the `with` block
    closes it;
  * a failure of `open` itself leaves the path untouched.

A file's state is `Option (List Char)`: `none` when no file exists at
the path, `some text` otherwise. -/

/-- The outcome of the serialize-and-write step of `export_to_json`. -/
inductive DumpOutcome where
  | ok (text : List Char)
  | failedAfter (written : List Char)
  | openFailed
  deriving Repr, DecidableEq

/-- `utils.export_to_json` (src/utils.py, lines 12-21): returns the
success boolean (the `except` clause logs and returns `False` instead of
re-raising) together with the state of the target path afterwards. -/
def export_to_json (outcome : DumpOutcome) (before : Option (List Char)) :
    Bool × Option (List Char) :=
  match outcome with
  | .openFailed => (false, before)
  | .ok text => (true, some text)
  | .failedAfter written => (false, some written)

/-- The four lists `export_json` fetches inside its `try` block; the raw
parsed API records are carried as JSON values. -/
structure FetchedData where
  repository_info : JVal
  commits : JArr
  issues : JArr
  pull_requests : JArr

/-- The document `export_json` (lines 219-231) assembles, with its keys
in insertion order: four metadata entries first, then the fetched data
and the contributor tally.  `contributors` is
`analyze_contributors(data["commits"])` in the source; its value plays
no role in the properties below, so it is passed in. -/
def exportDoc (repository : String) (period_days : Int)
    (since_date generated_at : String) (d : FetchedData)
    (contributors : JVal) : JVal :=
  .obj (.cons "repository" (.str repository)
    (.cons "period_days" (.num period_days)
      (.cons "since_date" (.str since_date)
        (.cons "generated_at" (.str generated_at)
          (.cons "repository_info" d.repository_info
            (.cons "commits" (.arr d.commits)
              (.cons "issues" (.arr d.issues)
                (.cons "pull_requests" (.arr d.pull_requests)
                  (.cons "contributors" contributors .nil)))))))))

/-- `GitHubPulseScraper.export_json` (lines 215-237): the fetching inside
the `try` block either yields the four data sets or raises (embedded as
`Except`); a raise is caught, logged and turned into `False` without any
write.  On success the assembled document goes to `export_to_json`,
whose serialize-and-write behaviour at the target path is the function
`dumpOf` of the document. -/
def export_json (fetched : Except String FetchedData)
    (repository : String) (period_days : Int)
    (since_date generated_at : String) (contributors : JVal)
    (dumpOf : JVal → DumpOutcome) (before : Option (List Char)) :
    Bool × Option (List Char) :=
  match fetched with
  | .error _ => (false, before)
  | .ok d =>
    export_to_json
      (dumpOf (exportDoc repository period_days since_date generated_at d contributors))
      before

/-- **C7.** Exporting and parsing back: serializing the document
`export_json` assembles and parsing the written text yields the same
document, whose `commits`, `issues` and `pull_requests` entries are
exactly the fetched input lists, element for element and in order.
(Clean strings: the fragment on which the serializer model agrees with
`json.dump` verbatim.) -/
theorem export_json_roundtrip (repository since_date generated_at : String)
    (period_days : Int) (d : FetchedData) (contributors : JVal)
    (h : cleanB (exportDoc repository period_days since_date generated_at
        d contributors) = true) :
    parseJson (dumpJson (exportDoc repository period_days since_date generated_at
        d contributors))
      = some (exportDoc repository period_days since_date generated_at d contributors) ∧
    jLookup (exportDoc repository period_days since_date generated_at d contributors)
        "commits" = some (.arr d.commits) ∧
    jLookup (exportDoc repository period_days since_date generated_at d contributors)
        "issues" = some (.arr d.issues) ∧
    jLookup (exportDoc repository period_days since_date generated_at d contributors)
        "pull_requests" = some (.arr d.pull_requests) :=
  ⟨parseJson_dumpJson _ h, rfl, rfl, rfl⟩

/-- Witness for C7: the round trip evaluated at a small concrete
document. -/
theorem export_json_roundtrip_witness :
    parseJson (dumpJson (exportDoc "o/r" 30 "2024-01-01" "2024-01-31"
        ⟨JVal.null, JArr.cons JVal.null JArr.nil, JArr.nil, JArr.nil⟩ JVal.null))
      = some (exportDoc "o/r" 30 "2024-01-01" "2024-01-31"
        ⟨JVal.null, JArr.cons JVal.null JArr.nil, JArr.nil, JArr.nil⟩ JVal.null) :=
  (export_json_roundtrip "o/r" "2024-01-01" "2024-01-31" 30
    ⟨JVal.null, JArr.cons JVal.null JArr.nil, JArr.nil, JArr.nil⟩ JVal.null
    (by decide)).1

/-- **C8, counterexample.** The claim "if the write fails, the content at
the target path is left unchanged" is false as stated: `open(output_file,
"w")` truncates the file before `json.dump` starts streaming, so a dump
that fails immediately leaves an empty file where the prior content had
been, while the function returns `False`. -/
theorem export_to_json_not_atomic :
    (export_to_json (.failedAfter []) (some ['x'])).1 = false ∧
    ¬ (export_to_json (.failedAfter []) (some ['x'])).2 = some ['x'] :=
  ⟨rfl, by decide⟩

/-- **C8, amended.** The JSON export writes directly (not atomically) to
the caller-specified path: a successful dump leaves the full text and
returns `True`; a dump that fails midway leaves exactly the prefix
emitted before the failure (the prior content is lost to the `"w"`-mode
truncation) and returns `False`; only when opening the file itself fails
is the content at the path unchanged. -/
theorem export_to_json_write_semantics (before : Option (List Char))
    (text written : List Char) :
    export_to_json (.ok text) before = (true, some text) ∧
    export_to_json (.failedAfter written) before = (false, some written) ∧
    export_to_json .openFailed before = (false, before) :=
  ⟨rfl, rfl, rfl⟩

/-- **C9.** Both export functions are total and return a boolean — the
embedded `try/except` structure turns every failure into a value, so no
exception propagates — and the boolean is `True` exactly on success:
`export_to_json` succeeds iff the dump completed, and `export_json`
succeeds iff every fetch succeeded and the subsequent write of the
assembled document completed. -/
theorem export_returns_boolean (fetched : Except String FetchedData)
    (repository since_date generated_at : String) (period_days : Int)
    (contributors : JVal) (dumpOf : JVal → DumpOutcome)
    (before : Option (List Char)) (outcome : DumpOutcome) :
    ((export_to_json outcome before).1 = true ↔ ∃ text, outcome = .ok text) ∧
    ((export_json fetched repository period_days since_date generated_at
        contributors dumpOf before).1 = true
      ↔ ∃ d, fetched = .ok d ∧
          ∃ text, dumpOf (exportDoc repository period_days since_date generated_at
            d contributors) = .ok text) := by
  constructor
  · cases outcome <;> simp [export_to_json]
  · cases fetched with
    | error e => simp [export_json]
    | ok d =>
      cases houtcome : dumpOf (exportDoc repository period_days since_date
          generated_at d contributors) <;>
        simp [export_json, export_to_json, houtcome]

end GithubScraper
